import Mathlib

/-!
Verification of the convert.py command set of the sublime-hexbindec package.

The plugin defines eight text commands (`BinToDecCommand` … `DecToExpCommand`
in `convert.py`).  Each command resolves a source regular expression and a
destination format template (built-in defaults unless overridden in the view
settings), then loops over the current selections; for each selection it
matches the text, parses the captured digits, formats the value and replaces
the selection, counting every failing selection in `num_skip`.

This file gives a shallow embedding of that code:

* a small backtracking matcher (`matchToks`) for exactly the regex constructs
  appearing in the default and scenario patterns: literals, greedy optional
  literals and character classes, greedy `+` over a character class, word
  boundaries and capture groups.  It mirrors the prefix-matching semantics of
  Python `re.match` (greedy, leftmost alternative first, full backtracking);
* models of the Python primitives the commands call: `int(s, base)`,
  `int(s)`, `str.strip`, `str.rstrip`, `str.format` for the template shapes
  used here, `float(s)`, `round(x, 18)` and `str` on floats.  Floating point
  is embedded exactly: a binary64 value is represented by its rational value
  and every operation rounds the exact rational result to 53 significant bits
  with round-to-nearest, ties-to-even (`b64round`), which is the semantics
  CPython guarantees for string→float conversion and multiplication.
  Overflow to the infinities is modelled; subnormal rounding is modelled at
  full precision (no theorem below depends on the subnormal range);
* the per-selection bodies of the eight commands and the selection loop
  (`runSels`), the configuration fallback (`load_pattern`), the
  empty-selection quote expansion used by scenario 5, and the
  divide/multiply normalization loop of `DecToExpCommand.run` (fuel-indexed,
  so that its non-termination can be stated).
-/

set_option maxRecDepth 16384

/- The Batteries rational operations are `@[irreducible]`, which blocks
`decide` from evaluating concrete rational arithmetic; make them reducible
again for the kernel computations below. -/
attribute [local semireducible] Rat.add Rat.sub Rat.mul Rat.inv Rat.ofScientific

/-! ### Characters and character classes -/

/-- The single-quote character (codepoint 39). -/
def squote : Char := Char.ofNat 39

/-- The opening-brace character of a format template field. -/
def lbrace : Char := Char.ofNat 123

/-- The closing-brace character of a format template field. -/
def rbrace : Char := Char.ofNat 125

/-- Python regex `\w` (ASCII fragment): letters, digits and underscore. -/
def isWordChar (c : Char) : Bool :=
  (97 ≤ c.toNat && c.toNat ≤ 122) || (65 ≤ c.toNat && c.toNat ≤ 90) ||
  (48 ≤ c.toNat && c.toNat ≤ 57) || c.toNat == 95

/-- The class `[01]` of the binary source patterns. -/
def isBinDigit (c : Char) : Bool := c == '0' || c == '1'

/-- The class `\d` (ASCII digits). -/
def isDecDigit (c : Char) : Bool := 48 ≤ c.toNat && c.toNat ≤ 57

/-- The class `[0-9a-f]` of the default hexadecimal source pattern
(lower-case only: the pattern is compiled without `re.IGNORECASE`). -/
def isHexDigitLower (c : Char) : Bool :=
  (48 ≤ c.toNat && c.toNat ≤ 57) || (97 ≤ c.toNat && c.toNat ≤ 102)

/-- The class `[-+]` of the exponent sign in the default exponential
source pattern. -/
def isSignChar (c : Char) : Bool := c == '-' || c == '+'

/-- Python `str.strip` whitespace (ASCII fragment): space and `\t\n\v\f\r`. -/
def isSpaceChar (c : Char) : Bool := c.toNat == 32 || (9 ≤ c.toNat && c.toNat ≤ 13)

/-! ### A backtracking matcher for the patterns used by convert.py -/

/-- Tokens of a compiled pattern: the regex constructs appearing in the
default patterns of convert.py and in the scenario-5 custom pattern. -/
inductive Tok where
  | lit (cs : List Char)
  | optLit (cs : List Char)
  | optCls (p : Char → Bool)
  | plus (p : Char → Bool)
  | wb
  | gopen
  | gclose

/-- Length of the maximal run of characters satisfying `p`. -/
def runLen (p : Char → Bool) : List Char → Nat
  | [] => 0
  | c :: cs => if p c then runLen p cs + 1 else 0

/-- First defined value in a list of alternatives (backtracking order). -/
def firstSome : List (Option α) → Option α
  | [] => none
  | some x :: _ => some x
  | none :: rest => firstSome rest

/-- The list `[n, n-1, …, 1]`: candidate lengths for a greedy `+`,
longest first. -/
def revRange : Nat → List Nat
  | 0 => []
  | j + 1 => (j + 1) :: revRange j

/-- Python regex `\b` at position `pos` of `s`: exactly one of the adjacent
characters is a word character (a missing character counts as non-word). -/
def isWB (s : List Char) (pos : Nat) : Bool :=
  let before :=
    match pos with
    | 0 => false
    | p + 1 => match s.get? p with | some c => isWordChar c | none => false
  let after := match s.get? pos with | some c => isWordChar c | none => false
  before != after

/-- Backtracking matcher.  `matchToks toks s pos st caps` matches the token
list against `s` starting at `pos` (a prefix match: trailing input is
allowed, as with `re.match`); `st` is the stack of open-group positions and
`caps` the captures collected so far, returned in group order on success.
Greedy constructs try the longest alternative first, exactly as the Python
engine does. -/
def matchToks : List Tok → List Char → Nat → List Nat → List (List Char) →
    Option (List (List Char))
  | [], _, _, _, caps => some caps
  | Tok.lit cs :: ts, s, pos, st, caps =>
      if (s.drop pos).take cs.length = cs then matchToks ts s (pos + cs.length) st caps
      else none
  | Tok.optLit cs :: ts, s, pos, st, caps =>
      if (s.drop pos).take cs.length = cs then
        match matchToks ts s (pos + cs.length) st caps with
        | some r => some r
        | none => matchToks ts s pos st caps
      else matchToks ts s pos st caps
  | Tok.optCls p :: ts, s, pos, st, caps =>
      match s.get? pos with
      | some c =>
          if p c then
            match matchToks ts s (pos + 1) st caps with
            | some r => some r
            | none => matchToks ts s pos st caps
          else matchToks ts s pos st caps
      | none => matchToks ts s pos st caps
  | Tok.plus p :: ts, s, pos, st, caps =>
      firstSome ((revRange (runLen p (s.drop pos))).map fun j => matchToks ts s (pos + j) st caps)
  | Tok.wb :: ts, s, pos, st, caps =>
      if isWB s pos then matchToks ts s pos st caps else none
  | Tok.gopen :: ts, s, pos, st, caps => matchToks ts s pos (pos :: st) caps
  | Tok.gclose :: ts, s, pos, st, caps =>
      match st with
      | p0 :: st2 => matchToks ts s pos st2 (caps ++ [(s.drop p0).take (pos - p0)])
      | [] => none

/-- `re.match(pattern, s)`, returning the list of captured groups. -/
def pyMatch (toks : List Tok) (s : List Char) : Option (List (List Char)) :=
  matchToks toks s 0 [] []

/-! ### The compiled default patterns and templates (convert.py lines 36-47) -/

/-- Compiled form of the default binary source pattern
`\b(?:0b)?([01]+)\b` (line 43). -/
def CONVERT_SRC_BIN_DFLT : List Tok :=
  [Tok.wb, Tok.optLit (['0', 'b']), Tok.gopen, Tok.plus isBinDigit, Tok.gclose, Tok.wb]

/-- Compiled form of the default hexadecimal source pattern
`\b(?:0x)?([0-9a-f]+)h?\b` (line 45). -/
def CONVERT_SRC_HEX_DFLT : List Tok :=
  [Tok.wb, Tok.optLit (['0', 'x']), Tok.gopen, Tok.plus isHexDigitLower, Tok.gclose,
   Tok.optLit (['h']), Tok.wb]

/-- Compiled form of the default exponential source pattern
`\b(\d+\.\d+)e([-+]?\d+)\b` (line 47). -/
def CONVERT_SRC_EXP_DFLT : List Tok :=
  [Tok.wb, Tok.gopen, Tok.plus isDecDigit, Tok.lit (['.']), Tok.plus isDecDigit, Tok.gclose,
   Tok.lit (['e']), Tok.gopen, Tok.optCls isSignChar, Tok.plus isDecDigit, Tok.gclose, Tok.wb]

/-- The default binary destination template (line 37). -/
def CONVERT_DST_BIN_DFLT : List Char := [lbrace, '0', ':', 'b', rbrace]

/-- The default hexadecimal destination template (line 39). -/
def CONVERT_DST_HEX_DFLT : List Char := [lbrace, '0', ':', '#', 'x', rbrace]

/-- The default exponential destination marker (line 41). -/
def CONVERT_DST_EXP_DFLT : List Char := ['e']

/-! ### Digit strings and numbers -/

/-- Little-endian digits of `n` in the given base, with explicit fuel
(fuel `n` suffices; kept fueled so the kernel can evaluate it). -/
def toDigitsRevF (base : Nat) : Nat → Nat → List Nat
  | 0, _ => []
  | f + 1, n => if n = 0 then [] else n % base :: toDigitsRevF base f (n / base)

/-- The character of digit `d` (lower- or upper-case for `d ≥ 10`). -/
def digitChar (upper : Bool) (d : Nat) : Char :=
  if d < 10 then Char.ofNat (48 + d) else Char.ofNat ((if upper then 55 else 87) + d)

/-- Decimal/binary/hexadecimal digit string of `n` (no sign, no prefix),
as produced by Python `format` and `str`. -/
def natStrBase (base : Nat) (upper : Bool) (n : Nat) : List Char :=
  if n = 0 then ['0'] else ((toDigitsRevF base n n).map (digitChar upper)).reverse

/-- Python `str` of a non-negative integer. -/
def natStrDec (n : Nat) : List Char := natStrBase 10 false n

/-- Python `str` of an integer. -/
def intStr (n : Int) : List Char :=
  if n < 0 then '-' :: natStrDec n.natAbs else natStrDec n.natAbs

/-- Value of a digit character in the given base (`0-9`, `a-z`, `A-Z`),
as accepted by `int(s, base)`. -/
def digitVal (base : Nat) (c : Char) : Option Nat :=
  let v : Nat :=
    if 48 ≤ c.toNat ∧ c.toNat ≤ 57 then c.toNat - 48
    else if 97 ≤ c.toNat ∧ c.toNat ≤ 122 then c.toNat - 87
    else if 65 ≤ c.toNat ∧ c.toNat ≤ 90 then c.toNat - 55
    else 99
  if v < base then some v else none

/-- Accumulating parser for `pyIntBase`. -/
def pyIntBaseAux (base : Nat) : List Char → Nat → Option Nat
  | [], acc => some acc
  | c :: cs, acc =>
      match digitVal base c with
      | some v => pyIntBaseAux base cs (acc * base + v)
      | none => none

/-- Python `int(s, base)` restricted to plain digit strings, the only shape
the capture groups of the patterns above can produce (full `int` also
accepts a sign, surrounding whitespace, underscores and a base prefix;
none of those can occur in a captured group here).  An empty or invalid
string raises `ValueError`, modelled as `none`. -/
def pyIntBase (base : Nat) (g : List Char) : Option Nat :=
  if g = [] then none else pyIntBaseAux base g 0

/-! ### Python str.format for the template shapes of convert.py -/

/-- Rendering of a non-negative value for the format specs used by the
plugin: plain/`d`, `b`, `x`, `X` and their `#`-prefixed forms.  Other specs
are outside the modelled fragment. -/
def fmtNat (spec : List Char) (n : Nat) : Option (List Char) :=
  if spec = [] ∨ spec = ['d'] then some (natStrDec n)
  else if spec = ['b'] then some (natStrBase 2 false n)
  else if spec = ['x'] then some (natStrBase 16 false n)
  else if spec = ['X'] then some (natStrBase 16 true n)
  else if spec = ['#', 'x'] then some ('0' :: 'x' :: natStrBase 16 false n)
  else if spec = ['#', 'X'] then some ('0' :: 'X' :: natStrBase 16 true n)
  else if spec = ['#', 'b'] then some ('0' :: 'b' :: natStrBase 2 false n)
  else none

/-- A replacement field `0` or `0:spec` applied to integer `v`; the sign of
a negative value precedes the `#` prefix, as in Python. -/
def fmtField (field : List Char) (v : Int) : Option (List Char) :=
  match field with
  | '0' :: spec =>
      let sp : Option (List Char) :=
        match spec with
        | [] => some []
        | ':' :: rest => some rest
        | _ => none
      match sp with
      | some sp2 => (fmtNat sp2 v.natAbs).map fun ds => if v < 0 then '-' :: ds else ds
      | none => none
  | _ => none

/-- Python `template.format(v)` for templates with at most one replacement
field (every template used by convert.py and its claims has exactly zero or
one).  Lone braces or multiple fields are outside the modelled fragment. -/
def pyFormat (tpl : List Char) (v : Int) : Option (List Char) :=
  let pre := tpl.takeWhile (fun c => c ≠ lbrace)
  match tpl.dropWhile (fun c => c ≠ lbrace) with
  | [] => if pre.any (fun c => c = rbrace) then none else some pre
  | _ :: rest2 =>
      let field := rest2.takeWhile (fun c => c ≠ rbrace)
      match rest2.dropWhile (fun c => c ≠ rbrace) with
      | [] => none
      | _ :: suffix =>
          if suffix.any (fun c => c = lbrace ∨ c = rbrace) then none
          else (fmtField field v).map fun out => pre ++ out ++ suffix

/-! ### Python int() and str.strip -/

/-- Python `str.strip()` (ASCII whitespace fragment). -/
def pyStrip (s : List Char) : List Char :=
  ((s.dropWhile isSpaceChar).reverse.dropWhile isSpaceChar).reverse

/-- Decimal digits with single underscores between digits, as accepted by
`int`; the accumulator carries the value read so far. -/
def usDigitsAux : List Char → Nat → Option Nat
  | [], acc => some acc
  | c :: cs, acc =>
      if c = '_' then
        match cs with
        | d :: cs2 =>
            if isDecDigit d then usDigitsAux cs2 (acc * 10 + (d.toNat - 48)) else none
        | [] => none
      else if isDecDigit c then usDigitsAux cs (acc * 10 + (c.toNat - 48))
      else none

/-- Python `int(t)` on an already-stripped string: optional sign, then a
digit string with optional single underscores between digits (ASCII
fragment; Unicode digits are outside the model).  Raises, i.e. `none`, on
anything else. -/
def pyIntOfString (t : List Char) : Option Int :=
  let p : Int × List Char :=
    match t with
    | c :: rest => if c = '-' then (-1, rest) else if c = '+' then (1, rest) else (1, t)
    | [] => (1, [])
  match p.2 with
  | c :: _ =>
      if isDecDigit c then (usDigitsAux p.2 0).map fun n => p.1 * n else none
  | [] => none

/-- Python `str.rstrip(c)`: remove every trailing occurrence of `c`. -/
def rstrip (c : Char) (s : List Char) : List Char :=
  (s.reverse.dropWhile (fun x => x = c)).reverse

/-! ### Exact binary64 model

A finite binary64 value is represented by its exact rational value; every
operation rounds the exact rational result to 53 significant bits with
round-to-nearest, ties-to-even, which is the IEEE-754 semantics CPython
relies on for `float(string)` and `*`.  Subnormal values are rounded at
full 53-bit precision (the coarser subnormal grid is never hit by a theorem
in this file), and overflow is cut off at `2^1024`. -/

/-- Fueled floor-log2 (fuel `n` suffices; only `log2 n` steps are taken). -/
def nlog2F : Nat → Nat → Nat
  | 0, _ => 0
  | f + 1, n => if n ≤ 1 then 0 else nlog2F f (n / 2) + 1

/-- Floor of the base-2 logarithm of a positive natural number. -/
def nlog2 (n : Nat) : Nat := nlog2F n n

/-- The rational `2 ^ e` for an integer `e`, computed through the
kernel-accelerated natural-number power. -/
def qpow2 (e : ℤ) : ℚ :=
  if 0 ≤ e then ((2 ^ e.toNat : ℕ) : ℚ) else 1 / ((2 ^ (-e).toNat : ℕ) : ℚ)

/-- Floor of the base-2 logarithm of a positive rational: the unique `e`
with `2^e ≤ q < 2^(e+1)`. -/
def qlog2 (q : ℚ) : ℤ :=
  let c : ℤ := (nlog2 q.num.toNat : ℤ) - (nlog2 q.den : ℤ)
  if q < qpow2 c then c - 1 else c

/-- Round a rational to the nearest integer, ties to even. -/
def roundHalfEven (q : ℚ) : ℤ :=
  if q - (⌊q⌋ : ℚ) < 1 / 2 then ⌊q⌋
  else if 1 / 2 < q - (⌊q⌋ : ℚ) then ⌊q⌋ + 1
  else if ⌊q⌋ % 2 = 0 then ⌊q⌋ else ⌊q⌋ + 1

/-- Round a positive rational to 53 significant bits, ties to even. -/
def b64pos (q : ℚ) : ℚ :=
  (roundHalfEven (q * qpow2 ((52 : ℤ) - qlog2 q)) : ℚ) * qpow2 (qlog2 q - (52 : ℤ))

/-- Round a rational to 53 significant bits, ties to even (the binary64
significand length); rounding is symmetric in the sign, as in IEEE-754
round-to-nearest. -/
def b64round (q : ℚ) : ℚ :=
  if q = 0 then 0 else if 0 < q then b64pos q else -b64pos (-q)

/-- First rational magnitude that overflows a binary64. -/
def b64max : ℚ := ((2 ^ 1024 : ℕ) : ℚ)

/-- A Python float: a finite value (by its exact rational), an infinity, or
a NaN. -/
inductive PyF where
  | fin (q : ℚ)
  | pinf
  | ninf
  | nan
  deriving DecidableEq

/-- The rational `10 ^ e` for an integer `e`, computed through the
kernel-accelerated natural-number power. -/
def qpow10 (e : ℤ) : ℚ :=
  if 0 ≤ e then ((10 ^ e.toNat : ℕ) : ℚ) else 1 / ((10 ^ (-e).toNat : ℕ) : ℚ)

/-- Exact rational value of the decimal-literal body `digits [. digits]
[e [sign] digits]` (at least one mantissa digit, nothing trailing);
`none` when the shape is not a float literal. -/
def decLitQ (s : List Char) : Option ℚ :=
  let ds := s.takeWhile isDecDigit
  let rest := s.dropWhile isDecDigit
  let fp : List Char × List Char :=
    match rest with
    | '.' :: r => (r.takeWhile isDecDigit, r.dropWhile isDecDigit)
    | _ => ([], rest)
  let fs := fp.1
  if ds.length + fs.length = 0 then none
  else
    let ex : Option ℤ :=
      match fp.2 with
      | [] => some 0
      | 'e' :: r =>
          let sp : ℤ × List Char :=
            match r with
            | c :: rest2 =>
                if c = '-' then (-1, rest2) else if c = '+' then (1, rest2) else (1, r)
            | [] => (1, [])
          let eds := sp.2.takeWhile isDecDigit
          if eds.length = 0 ∨ sp.2.dropWhile isDecDigit ≠ [] then none
          else some (sp.1 * ((pyIntBaseAux 10 eds 0).getD 0 : ℤ))
      | 'E' :: r =>
          let sp : ℤ × List Char :=
            match r with
            | c :: rest2 =>
                if c = '-' then (-1, rest2) else if c = '+' then (1, rest2) else (1, r)
            | [] => (1, [])
          let eds := sp.2.takeWhile isDecDigit
          if eds.length = 0 ∨ sp.2.dropWhile isDecDigit ≠ [] then none
          else some (sp.1 * ((pyIntBaseAux 10 eds 0).getD 0 : ℤ))
      | _ => none
    match ex with
    | none => none
    | some e =>
        let mant : ℚ :=
          ((pyIntBaseAux 10 ds 0).getD 0 : ℚ) +
            ((pyIntBaseAux 10 fs 0).getD 0 : ℚ) / ((10 ^ fs.length : ℕ) : ℚ)
        some (mant * qpow10 e)

/-- Lower-case an ASCII letter. -/
def lowerChar (c : Char) : Char :=
  if 65 ≤ c.toNat ∧ c.toNat ≤ 90 then Char.ofNat (c.toNat + 32) else c

/-- Python `float(s)` (convert.py lines 268 and 309): strip, optional sign,
then `nan` / `inf` / `infinity` (case-insensitive) or a decimal literal,
whose exact value is correctly rounded to binary64; magnitudes reaching
`2^1024` give an infinity, as CPython strtod does.  (Underscore separators
and Unicode digits are outside the modelled fragment.) -/
def pyFloatParse (s : List Char) : Option PyF :=
  let t := pyStrip s
  let p : ℤ × List Char :=
    match t with
    | c :: rest => if c = '-' then (-1, rest) else if c = '+' then (1, rest) else (1, t)
    | [] => (1, [])
  let tl := p.2.map lowerChar
  if tl = ['n', 'a', 'n'] then some PyF.nan
  else if tl = ['i', 'n', 'f'] ∨ tl = ['i', 'n', 'f', 'i', 'n', 'i', 't', 'y'] then
    some (if p.1 = 1 then PyF.pinf else PyF.ninf)
  else
    match decLitQ p.2 with
    | none => none
    | some q =>
        let v := b64round ((p.1 : ℚ) * q)
        if b64max ≤ v then some PyF.pinf
        else if v ≤ -b64max then some PyF.ninf
        else some (PyF.fin v)

/-- Python `10 ** e` for a float exponent `e` (convert.py line 268),
modelled on the exponents for which the result `10^k` is exactly
representable in binary64 (integral `0 ≤ k ≤ 22`), where every libm `pow`
is exact; other exponents depend on the platform libm and are outside the
model. -/
def pyPowTen (e : ℚ) : Option ℚ :=
  if e.den = 1 ∧ 0 ≤ e.num ∧ e.num ≤ 22 then some (((10 ^ e.num.toNat : ℕ) : ℚ)) else none

/-- Python `round(x, 18)` on a finite float: the exact value is rounded to
18 fractional decimal digits (ties to even) and the result is correctly
rounded back to binary64, which is what CPython computes via its
correctly-rounded double↔decimal conversions. -/
def pyRound18 (q : ℚ) : ℚ :=
  b64round ((roundHalfEven (q * ((10 ^ 18 : ℕ) : ℚ)) : ℚ) / ((10 ^ 18 : ℕ) : ℚ))

/-- Python `str` of a float, modelled on the fragment the theorems touch:
the named values, and finite integral values of magnitude below `10^16`,
whose repr is the integer followed by `.0`.  The shortest-repr algorithm
for other finite values is outside the model. -/
def pyFloatRepr : PyF → Option (List Char)
  | PyF.nan => some (['n', 'a', 'n'])
  | PyF.pinf => some (['i', 'n', 'f'])
  | PyF.ninf => some (['-', 'i', 'n', 'f'])
  | PyF.fin q =>
      if q.den = 1 ∧ q.num.natAbs < 10 ^ 16 then some (intStr q.num ++ ['.', '0'])
      else none

/-! ### The DecToExp normalization loop (convert.py lines 310-316) -/

/-- Guard of the first loop, `base > 10` (NaN compares false). -/
def pyfGt10 : PyF → Bool
  | PyF.fin q => decide (10 < q)
  | PyF.pinf => true
  | PyF.ninf => false
  | PyF.nan => false

/-- Guard of the second loop, `base < 1` (NaN compares false). -/
def pyfLt1 : PyF → Bool
  | PyF.fin q => decide (q < 1)
  | PyF.pinf => false
  | PyF.ninf => true
  | PyF.nan => false

/-- One step `base /= 10` (correctly rounded; a division by 10 cannot
overflow). -/
def pyfDiv10 : PyF → PyF
  | PyF.fin q => PyF.fin (b64round (q / 10))
  | PyF.pinf => PyF.pinf
  | PyF.ninf => PyF.ninf
  | PyF.nan => PyF.nan

/-- One step `base *= 10` (correctly rounded, overflowing to an infinity). -/
def pyfMul10 : PyF → PyF
  | PyF.fin q =>
      if b64max ≤ b64round (q * 10) then PyF.pinf
      else if b64round (q * 10) ≤ -b64max then PyF.ninf
      else PyF.fin (b64round (q * 10))
  | PyF.pinf => PyF.pinf
  | PyF.ninf => PyF.ninf
  | PyF.nan => PyF.nan

/-- The loop `while base > 10: base /= 10; exp += 1`, with fuel; `none`
means the fuel ran out with the guard still true. -/
def loopDiv : Nat → PyF × ℤ → Option (PyF × ℤ)
  | 0, p => if pyfGt10 p.1 then none else some p
  | n + 1, p => if pyfGt10 p.1 then loopDiv n (pyfDiv10 p.1, p.2 + 1) else some p

/-- The loop `while base < 1: base *= 10; exp -= 1`, with fuel. -/
def loopMul : Nat → PyF × ℤ → Option (PyF × ℤ)
  | 0, p => if pyfLt1 p.1 then none else some p
  | n + 1, p => if pyfLt1 p.1 then loopMul n (pyfMul10 p.1, p.2 - 1) else some p

/-- Both normalization loops of `DecToExpCommand.run` in sequence, starting
from `exp = 0`.  The loops terminate on `base` if and only if some fuel
returns `some`. -/
def decToExpLoops (n : Nat) (b : PyF) : Option (PyF × ℤ) :=
  match loopDiv n (b, 0) with
  | some p => loopMul n p
  | none => none

/-! ### The per-selection bodies of the eight commands

Each function is the `try` body of the corresponding `run` loop for a
non-empty selection whose text is given: match or parse, convert, format;
`none` is the raised-and-caught path that increments `num_skip`. -/

/-- BinToDecCommand (lines 76-77): `str(int(match.group(1), 2))`. -/
def binToDecSel (s : String) : Option String :=
  match pyMatch CONVERT_SRC_BIN_DFLT s.data with
  | some [g] => (pyIntBase 2 g).map fun n => String.mk (natStrDec n)
  | _ => none

/-- BinToHexCommand (lines 108-109): `dst_format.format(int(match.group(1), 2))`
with the default destination template. -/
def binToHexSel (s : String) : Option String :=
  match pyMatch CONVERT_SRC_BIN_DFLT s.data with
  | some [g] =>
      (pyIntBase 2 g).bind fun n => (pyFormat CONVERT_DST_HEX_DFLT (n : ℤ)).map String.mk
  | _ => none

/-- DecToBinCommand (lines 134-135): `dst_format.format(int(substr.strip()))`. -/
def decToBinSel (s : String) : Option String :=
  (pyIntOfString (pyStrip s.data)).bind fun n => (pyFormat CONVERT_DST_BIN_DFLT n).map String.mk

/-- DecToHexCommand (lines 160-161): `dst_format.format(int(substr.strip()))`. -/
def decToHexSel (s : String) : Option String :=
  (pyIntOfString (pyStrip s.data)).bind fun n => (pyFormat CONVERT_DST_HEX_DFLT n).map String.mk

/-- HexToBinCommand (lines 193-194): `dst_format.format(int(match.group(1), 16))`. -/
def hexToBinSel (s : String) : Option String :=
  match pyMatch CONVERT_SRC_HEX_DFLT s.data with
  | some [g] =>
      (pyIntBase 16 g).bind fun n => (pyFormat CONVERT_DST_BIN_DFLT (n : ℤ)).map String.mk
  | _ => none

/-- HexToDecCommand (lines 225-227): `str(int(match.group(1), 16))`. -/
def hexToDecSel (s : String) : Option String :=
  match pyMatch CONVERT_SRC_HEX_DFLT s.data with
  | some [g] => (pyIntBase 16 g).map fun n => String.mk (natStrDec n)
  | _ => none

/-- ExpToDecCommand (lines 266-270):
`round(float(g1) * 10 ** float(g2), 18)`, then `str(result)` with trailing
zeros and a trailing point stripped. -/
def expToDecSel (s : String) : Option String :=
  match pyMatch CONVERT_SRC_EXP_DFLT s.data with
  | some [g1, g2] =>
      match pyFloatParse g1, pyFloatParse g2 with
      | some (PyF.fin m), some (PyF.fin e2) =>
          match pyPowTen e2 with
          | some p =>
              match pyFloatRepr (PyF.fin (pyRound18 (b64round (m * p)))) with
              | some t => some (String.mk (rstrip '.' (rstrip '0' t)))
              | none => none
          | none => none
      | _, _ => none
  | _ => none

/-- DecToExpCommand (lines 308-321): `float(substr)`, the two normalization
loops, then `str(base)` stripped of trailing zeros and point, concatenated
with the destination marker and `str(exp)`.  Fuel-indexed through
`decToExpLoops`; when the loops do not terminate no fuel returns a value. -/
def decToExpSel (fuel : Nat) (s : String) : Option String :=
  match pyFloatParse s.data with
  | none => none
  | some b =>
      match decToExpLoops fuel b with
      | none => none
      | some p =>
          match pyFloatRepr p.1 with
          | some t =>
              some (String.mk (rstrip '.' (rstrip '0' t) ++ CONVERT_DST_EXP_DFLT ++ intStr p.2))
          | none => none

/-! ### The selection loop and the configuration fallback -/

/-- The `for sel in view.sel()` loop shared by all commands: each selection
text is replaced by the converted text when the body succeeds and left
unchanged (with `num_skip += 1`) when it raises; the loop never aborts.
Returns the final selection texts and `num_skip`. -/
def runSels (cv : String → Option String) : List String → List String × Nat
  | [] => ([], 0)
  | s :: rest =>
      let r := runSels cv rest
      match cv s with
      | some t => (t :: r.1, r.2)
      | none => (s :: r.1, r.2 + 1)

/-- HexToDecCommand.run (lines 207-235) over the non-empty selection texts. -/
def HexToDecCommand_run (sels : List String) : List String × Nat := runSels hexToDecSel sels

/-- BinToDecCommand.run (lines 60-85) over the non-empty selection texts. -/
def BinToDecCommand_run (sels : List String) : List String × Nat := runSels binToDecSel sels

/-- load_pattern (convert.py lines 51-55).  `re.compile` and the settings
store are external: `compile` abstracts `re.compile` (with `none` for a
raised compile error) and `setting` is the stored value of the key, when
present.  The bare `except` swallows the first compile error and compiles
the default instead. -/
def load_pattern {α : Type} (compile : String → Option α) (setting : Option String)
    (default : String) : Option α :=
  match compile (setting.getD default) with
  | some p => some p
  | none => compile default

/-! ### Empty-selection expansion (scenario 5) -/

/-- The empty-selection quote expansion (e.g. lines 100-106): the host has
already expanded the cursor to the word `[a, b)`; when the first character
of the resolved source pattern is a single quote, the region is widened by
one character on each side. -/
def quoteExpand (pat : List Char) (a b : ℤ) : ℤ × ℤ :=
  if pat.head? = some squote then (a - 1, b + 1) else (a, b)

/-- `view.substr(Region(a, b))`. -/
def viewSubstr (doc : List Char) (a b : ℤ) : List Char :=
  (doc.take b.toNat).drop a.toNat

/-- `view.replace(edit, Region(a, b), t)`. -/
def viewReplace (doc : List Char) (a b : ℤ) (t : List Char) : List Char :=
  doc.take a.toNat ++ t ++ doc.drop b.toNat

/-- BinToHexCommand.run on a single empty selection: the word region
`[wa, wb)` comes from `view.word`, the quote expansion is applied for the
resolved pattern, and the expanded region is matched, converted with the
resolved destination template and replaced (lines 100-109). -/
def binToHexEmptySel (doc : List Char) (wa wb : ℤ) (srcPat : List Char) (srcToks : List Tok)
    (dstTpl : List Char) : Option (List Char) :=
  let r := quoteExpand srcPat wa wb
  match pyMatch srcToks (viewSubstr doc r.1 r.2) with
  | some [g] =>
      (pyIntBase 2 g).bind fun n =>
        (pyFormat dstTpl (n : ℤ)).map fun out => viewReplace doc r.1 r.2 out
  | _ => none

/-- The scenario-5 custom source pattern: a single quote, `B`, a captured
binary digit group, a closing single quote. -/
def c8SrcPattern : List Char := [squote, 'B', '(', '[', '0', '1', ']', '+', ')', squote]

/-- Compiled form of `c8SrcPattern`. -/
def c8SrcToks : List Tok :=
  [Tok.lit ([squote, 'B']), Tok.gopen, Tok.plus isBinDigit, Tok.gclose, Tok.lit ([squote])]

/-- The scenario-5 custom destination template: quote, `B`, an upper-case
hexadecimal field, quote. -/
def c8DstTemplate : List Char := [squote, 'B', lbrace, '0', ':', 'X', rbrace, squote]

/-- The scenario-5 document, the quoted token `B101110`. -/
def c8Doc : List Char := [squote, 'B', '1', '0', '1', '1', '1', '0', squote]

/-! ### Spec-side definitions for the refinement claims -/

/-- Modelled from the spec: Python `hex(n)` for a non-negative `n`, the
`0x`-prefixed lower-case hexadecimal representation (claim C5 compares the
command output against `hex(int(s, 2))`). -/
def pyHexSpec (n : Nat) : List Char := '0' :: 'x' :: natStrBase 16 false n

/-- Modelled from the spec: `int(s, 2)` of a string of `0`/`1` digits, the
big-endian binary value. -/
def binStrVal (s : List Char) : Nat :=
  s.foldl (fun a c => a * 2 + (if c = '1' then 1 else 0)) 0

/-- The eight command drivers, each as its per-selection conversion paired
with its source-match/parse test: a selection whose text fails the test is
the per-selection failure path of that command.  The decimal commands have
no source pattern; their gate is the integer or float parse. -/
def cmdPairs (fuel : Nat) : List ((String → Option String) × (String → Bool)) :=
  [(binToDecSel, fun s => (pyMatch CONVERT_SRC_BIN_DFLT s.data).isSome),
   (binToHexSel, fun s => (pyMatch CONVERT_SRC_BIN_DFLT s.data).isSome),
   (decToBinSel, fun s => (pyIntOfString (pyStrip s.data)).isSome),
   (decToHexSel, fun s => (pyIntOfString (pyStrip s.data)).isSome),
   (hexToBinSel, fun s => (pyMatch CONVERT_SRC_HEX_DFLT s.data).isSome),
   (hexToDecSel, fun s => (pyMatch CONVERT_SRC_HEX_DFLT s.data).isSome),
   (expToDecSel, fun s => (pyMatch CONVERT_SRC_EXP_DFLT s.data).isSome),
   (decToExpSel fuel, fun s => (pyFloatParse s.data).isSome)]

/-! ## Lemmas about the selection loop -/

/-- The loop preserves the number of selections: it never aborts early. -/
theorem runSels_length (cv : String → Option String) (sels : List String) :
    (runSels cv sels).1.length = sels.length := by
  induction sels with
  | nil => rfl
  | cons s rest ih =>
      simp only [runSels]
      cases cv s <;> simp [ih]

/-- The skip counter is exactly the number of selections whose conversion
raised. -/
theorem runSels_count (cv : String → Option String) (sels : List String) :
    (runSels cv sels).2 = (sels.map cv).countP Option.isNone := by
  induction sels with
  | nil => rfl
  | cons s rest ih =>
      simp only [runSels, List.map_cons, List.countP_cons]
      cases cv s <;> simp [ih, Option.isNone]

/-- Pointwise behavior of the loop: each selection ends as its converted
text when conversion succeeds and as its original text otherwise. -/
theorem runSels_get? (cv : String → Option String) (sels : List String) (i : Nat) :
    (runSels cv sels).1.get? i = (sels.get? i).map fun s => (cv s).getD s := by
  induction sels generalizing i with
  | nil => simp [runSels]
  | cons s rest ih =>
      cases i with
      | zero =>
          simp only [runSels]
          cases h : cv s <;> simp [h]
      | succ j =>
          simp only [runSels]
          cases h : cv s <;> simp only [h, List.get?_cons_succ] <;> exact ih j

/-! ## Lemmas about the DecToExp loop on degenerate inputs -/

/-- Any fuel exits the first loop immediately when its guard is false. -/
theorem loopDiv_of_guard_false (b : PyF) (e : ℤ) (h : pyfGt10 b = false) (k : Nat) :
    loopDiv k (b, e) = some (b, e) := by
  cases k <;> simp [loopDiv, h]

/-- Any fuel exits the second loop immediately when its guard is false. -/
theorem loopMul_of_guard_false (b : PyF) (e : ℤ) (h : pyfLt1 b = false) (k : Nat) :
    loopMul k (b, e) = some (b, e) := by
  cases k <;> simp [loopMul, h]

/-- On the value zero the second loop never terminates: `0 * 10` is `0`
again and the guard `base < 1` stays true. -/
theorem loopMul_fin_zero (k : Nat) : ∀ e : ℤ, loopMul k (PyF.fin 0, e) = none := by
  induction k with
  | zero => intro e; simp [loopMul, pyfLt1]
  | succ n ih =>
      intro e
      have h1 : pyfLt1 (PyF.fin 0) = true := by decide
      have h2 : pyfMul10 (PyF.fin 0) = PyF.fin 0 := by decide
      simp [loopMul, h1, h2, ih]

/-- C2: with default settings on a single selection `0`, the six integer
commands terminate and replace the selection with the correct conversion of
zero (`0`, `0x0`, or `0` as appropriate; zero is not treated as empty or
falsy).  The code, however, falls short of the claim on the two exponential
commands: ExpToDec skips `0` (its source pattern requires the form
`digits.digits e digits`), and DecToExp parses `0` to the float zero and
then hangs: its multiply loop never terminates on zero, instead of
producing mantissa `0` and exponent `0`. -/
theorem C2_zero_input :
    BinToDecCommand_run [("0")] = ([("0")], 0) ∧
    binToHexSel ("0") = some ("0x0") ∧
    decToBinSel ("0") = some ("0") ∧
    decToHexSel ("0") = some ("0x0") ∧
    hexToBinSel ("0") = some ("0") ∧
    HexToDecCommand_run [("0")] = ([("0")], 0) ∧
    expToDecSel ("0") = none ∧
    pyFloatParse (String.data ("0")) = some (PyF.fin 0) ∧
    ∀ n : Nat, decToExpLoops n (PyF.fin 0) = none := by
  refine ⟨by decide, by decide, by decide, by decide, by decide, by decide, by decide,
    by decide, fun n => ?_⟩
  have hd : loopDiv n (PyF.fin 0, 0) = some (PyF.fin 0, 0) :=
    loopDiv_of_guard_false _ _ (by decide) n
  simp [decToExpLoops, hd, loopMul_fin_zero]

/-- C1 counterexample: with default settings the hexadecimal source pattern
is lower-case only, so the selection `FF` does not match: HexToDec over the
selections `FF`, `ZZ` leaves both untouched and reports two skips, not the
claimed replacement of `FF` by `255` with one skip. -/
theorem C1_counterexample :
    HexToDecCommand_run [("FF"), ("ZZ")] = ([("FF"), ("ZZ")], 2) ∧
    HexToDecCommand_run [("FF"), ("ZZ")] ≠ ([("255"), ("ZZ")], 1) := by
  constructor <;> decide

/-- C1 amended: over the selections `ff` (lower-case) and `ZZ`, HexToDec
replaces `ff` by `255`, leaves `ZZ` untouched and reports exactly one
skip. -/
theorem C1_amended :
    HexToDecCommand_run [("ff"), ("ZZ")] = ([("255"), ("ZZ")], 1) := by
  decide

/-- C3 counterexample: the selection `0x1Ah` is not replaced by `26`: the
default hexadecimal pattern accepts lower-case digits only and `A` is not
matched (backtracking also fails: group `1`, then `a`, is no word
boundary), so the selection is skipped and left untouched. -/
theorem C3_counterexample :
    hexToDecSel ("0x1Ah") = none ∧
    HexToDecCommand_run [("0x1Ah")] = ([("0x1Ah")], 1) ∧
    HexToDecCommand_run [("0x1Ah")] ≠ ([("26")], 0) := by
  refine ⟨by decide, by decide, by decide⟩

/-- C3 amended: on the lower-case selection `0x1ah` HexToDec strips the
`0x` prefix and the trailing `h`, and replaces the selection with `26`
without a skip. -/
theorem C3_amended :
    HexToDecCommand_run [("0x1ah")] = ([("26")], 0) := by
  decide

/-- C8: on an empty selection inside the quoted token `B101110` (document
positions 1-8 being the word the host reports), the custom pattern starts
with a single quote, so the region is widened to `[0, 9)` including both
quotes, and BinToHex with the custom destination replaces the whole quoted
token by quote-`B2E`-quote (`0b101110 = 46 = 0x2E`). -/
theorem C8_quote_expansion :
    quoteExpand c8SrcPattern 1 8 = (0, 9) ∧
    viewSubstr c8Doc 0 9 = c8Doc ∧
    binToHexEmptySel c8Doc 1 8 c8SrcPattern c8SrcToks c8DstTemplate =
      some ([squote, 'B', '2', 'E', squote]) := by
  refine ⟨by decide, by decide, by decide⟩

/-- C9: ExpToDec on `1.42e3` captures mantissa `1.42` and exponent `3`,
computes `float(1.42) * 10 ** 3.0` (exactly `1420.0` after binary64
rounding), rounds it to 18 fractional digits (unchanged), and strips the
trailing zero and point of `1420.0`, replacing the selection with `1420`. -/
theorem C9_exp_to_dec_scenario :
    pyMatch CONVERT_SRC_EXP_DFLT (String.data ("1.42e3")) =
      some [String.data ("1.42"), String.data ("3")] ∧
    b64round (b64round ((142 : ℚ) / 100) * 1000) = 1420 ∧
    pyRound18 1420 = 1420 ∧
    expToDecSel ("1.42e3") = some ("1420") := by
  refine ⟨by decide, by decide, by decide, by decide⟩

/-- C6: `load_pattern` never raises provided the default pattern compiles:
whatever string the configuration holds, the result is the compiled
configured pattern when it compiles, and the compiled default otherwise
(the compile error is swallowed by the bare `except`).  `compile` abstracts
`re.compile`, with `none` standing for a raised compile error. -/
theorem C6_load_pattern {α : Type} (compile : String → Option α) (setting : Option String)
    (dflt : String) (d : α) (hd : compile dflt = some d) :
    load_pattern compile setting dflt = some ((compile (setting.getD dflt)).getD d) := by
  unfold load_pattern
  cases h : compile (setting.getD dflt) <;> simp [h, hd]

/-- Witness for C6 at a concrete compile function, a configured string that
fails to compile and a default that compiles to `2`. -/
theorem C6_witness :
    load_pattern (fun s : String => if s.length ≤ 3 then some s.length else none)
      (some ("long-bad")) ("ok") = some 2 := by
  have h := C6_load_pattern (fun s : String => if s.length ≤ 3 then some s.length else none)
    (some ("long-bad")) ("ok") 2 (by decide)
  simpa using h

/-- C7: for every command and every sequence of (non-empty) selections, a
selection whose text fails the command source pattern (or, for the
decimal-source commands, its integer or float parse) raises inside the
`try`, so it is left unchanged and counted; the loop still processes every
selection (the output has one text per selection) and the final skip count
is exactly the number of failing selections — the command never aborts. -/
theorem C7_skip_behavior (fuel : Nat) (cv : String → Option String) (ok : String → Bool)
    (hmem : (cv, ok) ∈ cmdPairs fuel) (sels : List String) (i : Nat) (hi : i < sels.length)
    (hfail : ok (sels.get ⟨i, hi⟩) = false) :
    cv (sels.get ⟨i, hi⟩) = none ∧
    (runSels cv sels).1.get? i = some (sels.get ⟨i, hi⟩) ∧
    (runSels cv sels).1.length = sels.length ∧
    (runSels cv sels).2 = (sels.map cv).countP Option.isNone := by
  have hnone : cv (sels.get ⟨i, hi⟩) = none := by
    set s := sels.get ⟨i, hi⟩ with hs
    simp only [cmdPairs, List.mem_cons, List.not_mem_nil, or_false] at hmem
    rcases hmem with h|h|h|h|h|h|h|h <;> rw [Prod.mk.injEq] at h <;> obtain ⟨rfl, rfl⟩ := h
    · rcases hpm : pyMatch CONVERT_SRC_BIN_DFLT s.data with _ | g
      · simp [binToDecSel, hpm]
      · simp [hpm] at hfail
    · rcases hpm : pyMatch CONVERT_SRC_BIN_DFLT s.data with _ | g
      · simp [binToHexSel, hpm]
      · simp [hpm] at hfail
    · rcases hpi : pyIntOfString (pyStrip s.data) with _ | n
      · simp [decToBinSel, hpi]
      · simp [hpi] at hfail
    · rcases hpi : pyIntOfString (pyStrip s.data) with _ | n
      · simp [decToHexSel, hpi]
      · simp [hpi] at hfail
    · rcases hpm : pyMatch CONVERT_SRC_HEX_DFLT s.data with _ | g
      · simp [hexToBinSel, hpm]
      · simp [hpm] at hfail
    · rcases hpm : pyMatch CONVERT_SRC_HEX_DFLT s.data with _ | g
      · simp [hexToDecSel, hpm]
      · simp [hpm] at hfail
    · rcases hpm : pyMatch CONVERT_SRC_EXP_DFLT s.data with _ | g
      · simp [expToDecSel, hpm]
      · simp [hpm] at hfail
    · rcases hpf : pyFloatParse s.data with _ | b
      · simp [decToExpSel, hpf]
      · simp [hpf] at hfail
  refine ⟨hnone, ?_, runSels_length cv sels, runSels_count cv sels⟩
  rw [runSels_get?, List.get?_eq_get hi]
  have hnone2 : cv sels[i] = none := by simpa [List.get_eq_getElem] using hnone
  simp [hnone2]

/-- Witness for C7: BinToDec on the single selection `2`, which does not
match the binary source pattern. -/
theorem C7_witness :
    binToDecSel ("2") = none ∧
    (runSels binToDecSel [("2")]).1.get? 0 =
      some (([("2")] : List String).get ⟨0, by decide⟩) ∧
    (runSels binToDecSel [("2")]).1.length = ([("2")] : List String).length ∧
    (runSels binToDecSel [("2")]).2 =
      (([("2")] : List String).map binToDecSel).countP Option.isNone :=
  C7_skip_behavior 0 binToDecSel (fun s => (pyMatch CONVERT_SRC_BIN_DFLT s.data).isSome)
    (List.Mem.head _) [("2")] 0 (by decide) (by decide)

/-! ## Facts about the matcher on generic digit strings -/

/-- Binary digits are word characters. -/
theorem isWordChar_of_bin {c : Char} (h : isBinDigit c = true) : isWordChar c = true := by
  have h2 : c = '0' ∨ c = '1' := by simpa [isBinDigit] using h
  rcases h2 with rfl | rfl <;> decide

/-- Lower-case hexadecimal digits are word characters. -/
theorem isWordChar_of_hex {c : Char} (h : isHexDigitLower c = true) : isWordChar c = true := by
  have h2 : (48 ≤ c.toNat ∧ c.toNat ≤ 57) ∨ (97 ≤ c.toNat ∧ c.toNat ≤ 102) := by
    simpa [isHexDigitLower] using h
  rcases h2 with ⟨h1, h2⟩ | ⟨h1, h2⟩ <;> simp [isWordChar] <;> omega

/-- A run over characters that all satisfy the class is the whole list. -/
theorem runLen_all (p : Char → Bool) (l : List Char) (h : ∀ c ∈ l, p c = true) :
    runLen p l = l.length := by
  induction l with
  | nil => rfl
  | cons c t ih =>
      simp [runLen, h c (List.mem_cons_self ..), ih fun d hd => h d (List.mem_cons_of_mem _ hd)]

/-- A word boundary holds at position 0 of a string starting with a word
character. -/
theorem isWB_start {c : Char} (t : List Char) (h : isWordChar c = true) :
    isWB (c :: t) 0 = true := by
  simp [isWB, h]

/-- A word boundary holds at the end of a non-empty all-word string. -/
theorem isWB_end (s : List Char) (hne : s ≠ []) (hall : ∀ c ∈ s, isWordChar c = true) :
    isWB s s.length = true := by
  obtain ⟨c, t, rfl⟩ := List.exists_cons_of_ne_nil hne
  have hb : (c :: t).get? t.length = some ((c :: t).get ⟨t.length, by simp⟩) :=
    List.get?_eq_get (by simp)
  have hw : isWordChar ((c :: t).get ⟨t.length, by simp⟩) = true := hall _ (List.get_mem ..)
  have ha : (c :: t).get? (t.length + 1) = none := List.get?_eq_none.mpr (by simp)
  simp only [isWB, List.length_cons, hb, ha, hw]
  rfl

/-- The default binary pattern on a non-empty string of binary digits
matches and captures the whole string: the boundary holds at both ends,
the `0b` branch cannot apply, and the greedy group takes every digit. -/
theorem pyMatch_bin_all (s : List Char) (hne : s ≠ []) (hall : ∀ c ∈ s, isBinDigit c = true) :
    pyMatch CONVERT_SRC_BIN_DFLT s = some [s] := by
  obtain ⟨c0, t, rfl⟩ := List.exists_cons_of_ne_nil hne
  have hword : ∀ c ∈ c0 :: t, isWordChar c = true := fun c hc => isWordChar_of_bin (hall c hc)
  have hw0 : isWB (c0 :: t) 0 = true := isWB_start t (hword c0 (List.mem_cons_self ..))
  have hrl : runLen isBinDigit (c0 :: t) = t.length + 1 := by
    simpa using runLen_all isBinDigit (c0 :: t) hall
  have htake : (c0 :: t).take (t.length + 1) = c0 :: t := by
    have h := List.take_length (c0 :: t)
    simp only [List.length_cons] at h
    exact h
  have hlast : isWB (c0 :: t) (t.length + 1) = true := by
    have h := isWB_end (c0 :: t) hne hword
    simp only [List.length_cons] at h
    exact h
  unfold pyMatch CONVERT_SRC_BIN_DFLT
  simp only [matchToks, hw0, if_true]
  simp [matchToks, hrl, revRange, firstSome, htake, hlast]
  intro h1 h2
  exfalso
  cases t with
  | nil => simp at h2
  | cons c1 t2 =>
      rw [List.take_succ_cons, List.take_zero] at h2
      have hb2 : c1 = 'b' := by simpa using h2
      have hb := hall c1 (by simp)
      rw [hb2] at hb
      exact absurd hb (by decide)

/-! ## Digit parsing and formatting lemmas -/

/-- `int(s, 2)` on a string of binary digits reads the big-endian binary
value (generalized over the accumulator). -/
theorem pyIntBaseAux_bin (s : List Char) : ∀ a : Nat, (∀ c ∈ s, isBinDigit c = true) →
    pyIntBaseAux 2 s a = some (s.foldl (fun x c => x * 2 + if c = '1' then 1 else 0) a) := by
  induction s with
  | nil => intro a _; rfl
  | cons c t ih =>
      intro a hall
      have hc : c = '0' ∨ c = '1' := by
        simpa [isBinDigit] using hall c (List.mem_cons_self ..)
      have ht : ∀ d ∈ t, isBinDigit d = true := fun d hd => hall d (List.mem_cons_of_mem _ hd)
      rcases hc with rfl | rfl
      · have hd : digitVal 2 '0' = some 0 := by decide
        have hi : (if ('0' : Char) = '1' then 1 else 0) = 0 := by decide
        simp only [pyIntBaseAux, hd, List.foldl_cons, hi]
        exact ih _ ht
      · have hd : digitVal 2 '1' = some 1 := by decide
        have hi : (if ('1' : Char) = '1' then 1 else 0) = 1 := by decide
        simp only [pyIntBaseAux, hd, List.foldl_cons, hi]
        exact ih _ ht

/-- `int(s, 2)` of a non-empty binary digit string is its binary value. -/
theorem pyIntBase_bin (s : List Char) (hne : s ≠ []) (hall : ∀ c ∈ s, isBinDigit c = true) :
    pyIntBase 2 s = some (binStrVal s) := by
  unfold pyIntBase binStrVal
  rw [if_neg hne]
  exact pyIntBaseAux_bin s 0 hall

/-- The default hexadecimal destination template renders a non-negative
value as `0x` followed by its lower-case hexadecimal digits. -/
theorem pyFormat_hex_dflt (v : ℤ) (hv : 0 ≤ v) :
    pyFormat CONVERT_DST_HEX_DFLT v = some ('0' :: 'x' :: natStrBase 16 false v.natAbs) := by
  have hneg : ¬(v < 0) := not_lt.mpr hv
  rw [show pyFormat CONVERT_DST_HEX_DFLT v =
    (fmtField (['0', ':', '#', 'x']) v).map (fun out => [] ++ out ++ []) from rfl]
  simp [fmtField, fmtNat, hneg]

/-- C5: BinToHex with the default destination template on any non-empty
selection of binary digits replaces it with `hex(int(s, 2))`: the
`0x`-prefixed lower-case hexadecimal representation of the binary value. -/
theorem C5_binToHex_value (s : String) (hne : s.data ≠ [])
    (hall : ∀ c ∈ s.data, c = '0' ∨ c = '1') :
    binToHexSel s = some (String.mk (pyHexSpec (binStrVal s.data))) := by
  have hall2 : ∀ c ∈ s.data, isBinDigit c = true := by
    intro c hc
    rcases hall c hc with rfl | rfl <;> decide
  unfold binToHexSel
  rw [pyMatch_bin_all s.data hne hall2]
  show (pyIntBase 2 s.data).bind
      (fun n => Option.map String.mk (pyFormat CONVERT_DST_HEX_DFLT (n : ℤ))) =
    some (String.mk (pyHexSpec (binStrVal s.data)))
  rw [pyIntBase_bin s.data hne hall2]
  have hfmt := pyFormat_hex_dflt (binStrVal s.data : ℤ) (by positivity)
  rw [show ((binStrVal s.data : ℤ)).natAbs = binStrVal s.data from Int.natAbs_ofNat _] at hfmt
  simp [hfmt, pyHexSpec]

/-- Witness for C5 at the binary string `101110` (value 46, hex `2e`). -/
theorem C5_witness : binToHexSel ("101110") = some ("0x2e") := by
  have h := C5_binToHex_value ("101110") (by decide) (by decide)
  exact h.trans (by decide)

/-- The default hexadecimal pattern on `0x` followed by a non-empty string
of lower-case hexadecimal digits matches, taking the `0x` branch and
capturing exactly the digits (no trailing `h`, boundary at the end). -/
theorem pyMatch_hex_0x (tl : List Char) (hne : tl ≠ []) (hall : ∀ c ∈ tl, isHexDigitLower c = true) :
    pyMatch CONVERT_SRC_HEX_DFLT ('0' :: 'x' :: tl) = some [tl] := by
  obtain ⟨c, t, rfl⟩ := List.exists_cons_of_ne_nil hne
  have hword : ∀ d ∈ '0' :: 'x' :: c :: t, isWordChar d = true := by
    intro d hd
    simp only [List.mem_cons] at hd
    rcases hd with rfl | rfl | rfl | hd
    · decide
    · decide
    · exact isWordChar_of_hex (hall _ (List.mem_cons_self ..))
    · exact isWordChar_of_hex (hall d (List.mem_cons_of_mem _ hd))
  have hw0 : isWB ('0' :: 'x' :: c :: t) 0 = true :=
    isWB_start _ (hword '0' (List.mem_cons_self ..))
  have hrl : runLen isHexDigitLower (c :: t) = t.length + 1 := by
    simpa using runLen_all isHexDigitLower (c :: t)
      (fun d hd => hall d hd)
  have htake : (c :: t).take (t.length + 1) = c :: t := by
    have h := List.take_length (c :: t)
    simp only [List.length_cons] at h
    exact h
  have hdrop : ('0' :: 'x' :: c :: t).drop (2 + (t.length + 1)) = [] := by
    rw [List.drop_eq_nil_iff]
    simp
    omega
  have hlast : isWB ('0' :: 'x' :: c :: t) (2 + (t.length + 1)) = true := by
    have hpos : 2 + (t.length + 1) = ('0' :: 'x' :: c :: t).length := by
      simp only [List.length_cons]
      omega
    rw [hpos]
    exact isWB_end _ (by simp) hword
  unfold pyMatch CONVERT_SRC_HEX_DFLT
  simp [matchToks, hw0, hrl, revRange, firstSome, htake, hdrop, hlast,
    Nat.add_sub_cancel_left]

/-- Character-level round trip: the digit characters emitted for values
below 16 parse back to the same value. -/
theorem digitVal_digitChar (d : Nat) (hd : d < 16) : digitVal 16 (digitChar false d) = some d := by
  interval_cases d <;> decide

/-- The lower-case digit characters for values below 16 lie in the
hexadecimal character class. -/
theorem isHexDigitLower_digitChar (d : Nat) (hd : d < 16) :
    isHexDigitLower (digitChar false d) = true := by
  interval_cases d <;> decide

/-- Parsing the rendering of a digit list accumulates its big-endian
value. -/
theorem pyIntBaseAux_mapDigits (L : List Nat) : ∀ a : Nat, (∀ d ∈ L, d < 16) →
    pyIntBaseAux 16 (L.map (digitChar false)) a = some (L.foldl (fun x d => x * 16 + d) a) := by
  induction L with
  | nil => intro a _; rfl
  | cons d t ih =>
      intro a hall
      have hd := hall d (List.mem_cons_self ..)
      simp only [List.map_cons, pyIntBaseAux, digitVal_digitChar d hd, List.foldl_cons]
      exact ih _ fun x hx => hall x (List.mem_cons_of_mem _ hx)

/-- All digits produced by the fueled digit expansion are below the base. -/
theorem toDigitsRevF_lt (base : Nat) (hb : 1 ≤ base) :
    ∀ f n d, d ∈ toDigitsRevF base f n → d < base := by
  intro f
  induction f with
  | zero => intro n d h; simp [toDigitsRevF] at h
  | succ f ih =>
      intro n d h
      by_cases hn : n = 0
      · simp [toDigitsRevF, hn] at h
      · simp only [toDigitsRevF, if_neg hn] at h
        rcases List.mem_cons.mp h with rfl | h2
        · exact Nat.mod_lt _ (by omega)
        · exact ih _ _ h2

/-- Folding the reversed little-endian digits of `n` reconstructs `n`
(with the accumulator scaled by the base power). -/
theorem foldl_digits_rev (base : Nat) (hb : 2 ≤ base) :
    ∀ f n a, n ≤ f →
      (toDigitsRevF base f n).reverse.foldl (fun x d => x * base + d) a =
        a * base ^ (toDigitsRevF base f n).length + n := by
  intro f
  induction f with
  | zero =>
      intro n a h
      interval_cases n
      simp [toDigitsRevF]
  | succ f ih =>
      intro n a h
      by_cases hn : n = 0
      · simp [toDigitsRevF, hn]
      · have hrec : n / base ≤ f := by
          have h1 : n / base < n := Nat.div_lt_self (by omega) (by omega)
          omega
        simp only [toDigitsRevF, if_neg hn, List.reverse_cons, List.foldl_append,
          List.foldl_cons, List.foldl_nil, List.length_cons]
        rw [ih (n / base) a hrec]
        have hdm : n / base * base + n % base = n := by
          rw [Nat.mul_comm]
          exact Nat.div_add_mod n base
        calc (a * base ^ (toDigitsRevF base f (n / base)).length + n / base) * base + n % base
            = a * (base ^ (toDigitsRevF base f (n / base)).length * base) +
                (n / base * base + n % base) := by ring
          _ = a * base ^ ((toDigitsRevF base f (n / base)).length + 1) + n := by
              rw [hdm, pow_succ]

/-- `int(g, 16)` inverts the lower-case hexadecimal rendering. -/
theorem pyIntBase_natStrBase16 (n : Nat) : pyIntBase 16 (natStrBase 16 false n) = some n := by
  by_cases hn : n = 0
  · subst hn; decide
  · have hne : natStrBase 16 false n ≠ [] := by
      obtain ⟨f, rfl⟩ := Nat.exists_eq_succ_of_ne_zero hn
      simp [natStrBase, toDigitsRevF]
    unfold natStrBase at hne ⊢
    rw [if_neg hn] at hne ⊢
    unfold pyIntBase
    rw [if_neg hne, ← List.map_reverse]
    rw [pyIntBaseAux_mapDigits _ 0
      (fun d hd => toDigitsRevF_lt 16 (by omega) _ _ _ (List.mem_reverse.mp hd))]
    rw [foldl_digits_rev 16 (by omega) n n 0 le_rfl]
    simp

/-- Every character of the hexadecimal rendering is a lower-case
hexadecimal digit. -/
theorem natStrBase16_chars (n : Nat) : ∀ c ∈ natStrBase 16 false n, isHexDigitLower c = true := by
  intro ch hc
  by_cases hn : n = 0
  · subst hn
    simp [natStrBase] at hc
    subst hc
    decide
  · unfold natStrBase at hc
    rw [if_neg hn] at hc
    rw [List.mem_reverse] at hc
    obtain ⟨d, hd, rfl⟩ := List.mem_map.mp hc
    exact isHexDigitLower_digitChar d (toDigitsRevF_lt 16 (by omega) _ _ _ hd)

/-- The hexadecimal rendering is never empty. -/
theorem natStrBase16_ne_nil (n : Nat) : natStrBase 16 false n ≠ [] := by
  by_cases hn : n = 0
  · subst hn; decide
  · obtain ⟨f, rfl⟩ := Nat.exists_eq_succ_of_ne_zero hn
    simp [natStrBase, toDigitsRevF]

/-- C4 counterexample: the round trip fails on negative decimal integers:
DecToHex formats `-1` as `-0x1`, whose leading minus sign prevents any
match of the hexadecimal source pattern (`\b` fails before `-`), so
HexToDec skips the selection and the text stays `-0x1`, not `-1`. -/
theorem C4_counterexample :
    decToHexSel ("-1") = some ("-0x1") ∧
    hexToDecSel ("-0x1") = none ∧
    HexToDecCommand_run [("-0x1")] = ([("-0x1")], 1) ∧
    ("-0x1" : String) ≠ ("-1") := by
  refine ⟨by decide, by decide, by decide, by decide⟩

/-- C4 amended: for every selection whose stripped text parses as a
non-negative decimal integer `n`, DecToHex replaces it with the default
`0x`-prefixed rendering and HexToDec on that result yields `str(n)`, the
canonical decimal form of the original integer. -/
theorem C4_roundtrip (s : String) (n : ℤ) (hp : pyIntOfString (pyStrip s.data) = some n)
    (hn : 0 ≤ n) :
    (decToHexSel s).bind hexToDecSel = some (String.mk (natStrDec n.natAbs)) := by
  have hfmt := pyFormat_hex_dflt n hn
  have hd : decToHexSel s = some (String.mk ('0' :: 'x' :: natStrBase 16 false n.natAbs)) := by
    unfold decToHexSel
    rw [hp]
    simp [hfmt]
  rw [hd, Option.some_bind]
  unfold hexToDecSel
  rw [show (String.mk ('0' :: 'x' :: natStrBase 16 false n.natAbs)).data =
      '0' :: 'x' :: natStrBase 16 false n.natAbs from rfl]
  rw [pyMatch_hex_0x _ (natStrBase16_ne_nil n.natAbs) (natStrBase16_chars n.natAbs)]
  show (pyIntBase 16 (natStrBase 16 false n.natAbs)).map (fun k => String.mk (natStrDec k)) =
    some (String.mk (natStrDec n.natAbs))
  rw [pyIntBase_natStrBase16]
  rfl

/-- Witness for C4 at the decimal selection `10`: DecToHex gives `0xa`,
HexToDec brings back `10`. -/
theorem C4_witness : (decToHexSel ("10")).bind hexToDecSel = some ("10") := by
  have h := C4_roundtrip ("10") 10 (by decide) (by decide)
  exact h.trans (by decide)

/-! ## The binary64 rounding model: basic bounds -/

/-- Correctness of the fueled floor-log2. -/
theorem nlog2F_spec : ∀ f n, 0 < n → n ≤ f → 2 ^ nlog2F f n ≤ n ∧ n < 2 ^ (nlog2F f n + 1) := by
  intro f
  induction f with
  | zero => intro n h1 h2; omega
  | succ f ih =>
      intro n h1 h2
      by_cases hle : n ≤ 1
      · have hn1 : n = 1 := by omega
        subst hn1
        simp [nlog2F]
      · simp only [nlog2F, if_neg hle]
        have hm : 0 < n / 2 := Nat.div_pos (by omega) (by omega)
        have hmf : n / 2 ≤ f := by
          have : n / 2 < n := Nat.div_lt_self (by omega) (by omega)
          omega
        obtain ⟨ih1, ih2⟩ := ih (n / 2) hm hmf
        have hp1 : 2 ^ (nlog2F f (n / 2) + 1) = 2 ^ nlog2F f (n / 2) * 2 := pow_succ 2 _
        have hp2 : 2 ^ (nlog2F f (n / 2) + 1 + 1) = 2 ^ (nlog2F f (n / 2) + 1) * 2 :=
          pow_succ 2 _
        constructor
        · rw [hp1]; omega
        · rw [hp2]; omega

/-- Correctness of `nlog2` on positive naturals. -/
theorem nlog2_spec (n : Nat) (h : 0 < n) : 2 ^ nlog2 n ≤ n ∧ n < 2 ^ (nlog2 n + 1) :=
  nlog2F_spec n n h le_rfl

/-- `qpow2` agrees with the integer power of 2 in `ℚ`. -/
theorem qpow2_eq (e : ℤ) : qpow2 e = (2 : ℚ) ^ e := by
  unfold qpow2
  by_cases he : 0 ≤ e
  · rw [if_pos he]
    push_cast
    rw [← zpow_natCast (2 : ℚ) e.toNat, Int.toNat_of_nonneg he]
  · rw [if_neg he]
    push_cast
    rw [← zpow_natCast (2 : ℚ) (-e).toNat, Int.toNat_of_nonneg (by omega), one_div,
      ← zpow_neg, neg_neg]

/-- `qlog2` is a correct floor-log2 on positive rationals. -/
theorem qlog2_spec (q : ℚ) (hq : 0 < q) :
    (2 : ℚ) ^ qlog2 q ≤ q ∧ q < (2 : ℚ) ^ (qlog2 q + 1) := by
  have hnum : 0 < q.num := Rat.num_pos.mpr hq
  have hden : 0 < q.den := q.pos
  set a := q.num.toNat with ha
  have ha0 : 0 < a := by omega
  have haq : ((a : ℤ) : ℚ) = (q.num : ℚ) := by
    rw [ha, Int.toNat_of_nonneg (le_of_lt hnum)]
  obtain ⟨la1, la2⟩ := nlog2_spec a ha0
  obtain ⟨lb1, lb2⟩ := nlog2_spec q.den hden
  set La : ℤ := (nlog2 a : ℤ) with hLa
  set Lb : ℤ := (nlog2 q.den : ℤ) with hLb
  have hA1 : (2 : ℚ) ^ La ≤ (a : ℚ) := by
    rw [hLa, zpow_natCast]
    exact_mod_cast la1
  have hA2 : (a : ℚ) < (2 : ℚ) ^ (La + 1) := by
    rw [hLa, show (nlog2 a : ℤ) + 1 = ((nlog2 a + 1 : ℕ) : ℤ) from by push_cast; ring,
      zpow_natCast]
    exact_mod_cast la2
  have hB1 : (2 : ℚ) ^ Lb ≤ (q.den : ℚ) := by
    rw [hLb, zpow_natCast]
    exact_mod_cast lb1
  have hB2 : (q.den : ℚ) < (2 : ℚ) ^ (Lb + 1) := by
    rw [hLb, show (nlog2 q.den : ℤ) + 1 = ((nlog2 q.den + 1 : ℕ) : ℤ) from by push_cast; ring,
      zpow_natCast]
    exact_mod_cast lb2
  have hBpos : (0 : ℚ) < (q.den : ℚ) := by exact_mod_cast hden
  have haq2 : ((a : ℕ) : ℚ) = (q.num : ℚ) := by
    exact_mod_cast Int.toNat_of_nonneg (le_of_lt hnum)
  have hqAB : q * (q.den : ℚ) = (a : ℚ) := by
    rw [haq2]
    have hnd := Rat.num_div_den q
    rw [div_eq_iff (ne_of_gt hBpos)] at hnd
    exact hnd.symm
  -- strict lower bound 2 ^ (La - Lb - 1) < q
  have hlow : (2 : ℚ) ^ (La - Lb - 1) < q := by
    rw [show La - Lb - 1 = La - (Lb + 1) from by ring, zpow_sub₀ (by norm_num : (2:ℚ) ≠ 0)]
    rw [div_lt_iff₀ (by positivity)]
    calc (2 : ℚ) ^ La ≤ (a : ℚ) := hA1
      _ = q * (q.den : ℚ) := hqAB.symm
      _ < q * (2 : ℚ) ^ (Lb + 1) := by
          exact mul_lt_mul_of_pos_left hB2 hq
  -- strict upper bound q < 2 ^ (La - Lb + 1)
  have hhigh : q < (2 : ℚ) ^ (La - Lb + 1) := by
    rw [show La - Lb + 1 = (La + 1) - Lb from by ring, zpow_sub₀ (by norm_num : (2:ℚ) ≠ 0)]
    rw [lt_div_iff₀ (by positivity)]
    calc q * (2 : ℚ) ^ Lb ≤ q * (q.den : ℚ) := mul_le_mul_of_nonneg_left hB1 (le_of_lt hq)
      _ = (a : ℚ) := hqAB
      _ < (2 : ℚ) ^ (La + 1) := hA2
  simp only [qlog2, qpow2_eq]
  by_cases hc : q < (2 : ℚ) ^ ((nlog2 q.num.toNat : ℤ) - (nlog2 q.den : ℤ))
  · rw [if_pos hc]
    constructor
    · have := hlow
      rw [show La - Lb - 1 = (nlog2 q.num.toNat : ℤ) - (nlog2 q.den : ℤ) - 1 from by
        rw [hLa, hLb, ha]] at this
      exact le_of_lt this
    · have hx : (nlog2 q.num.toNat : ℤ) - (nlog2 q.den : ℤ) - 1 + 1 =
        (nlog2 q.num.toNat : ℤ) - (nlog2 q.den : ℤ) := by ring
      rw [hx]
      exact hc
  · rw [if_neg hc]
    constructor
    · exact not_lt.mp hc
    · have := hhigh
      rw [show La - Lb + 1 = (nlog2 q.num.toNat : ℤ) - (nlog2 q.den : ℤ) + 1 from by
        rw [hLa, hLb, ha]] at this
      exact this

/-- Round-half-even moves its input by at most one half. -/
theorem roundHalfEven_bounds (q : ℚ) :
    q - 1 / 2 ≤ (roundHalfEven q : ℚ) ∧ (roundHalfEven q : ℚ) ≤ q + 1 / 2 := by
  have h1 := Int.floor_le q
  have h2 := Int.lt_floor_add_one q
  unfold roundHalfEven
  split_ifs with h3 h4 h5 <;> constructor <;> push_cast <;> linarith

/-- Rounding a positive rational to 53 bits changes it by less than a
factor of two either way (a crude but sufficient relative-error bound:
the true error is half an ulp). -/
theorem b64pos_bounds (q : ℚ) (hq : 0 < q) : q / 2 ≤ b64pos q ∧ b64pos q ≤ 2 * q := by
  obtain ⟨he1, he2⟩ := qlog2_spec q hq
  set E := qlog2 q with hE
  have hPpos : (0 : ℚ) < (2 : ℚ) ^ (E - (52 : ℤ)) := zpow_pos (by norm_num) _
  obtain ⟨hr1, hr2⟩ := roundHalfEven_bounds (q * qpow2 ((52 : ℤ) - E))
  rw [qpow2_eq] at hr1 hr2
  have htne : (2 : ℚ) ≠ 0 := by norm_num
  have hk1 : (2 : ℚ) ^ ((52 : ℤ) - E) * (2 : ℚ) ^ (E - (52 : ℤ)) = 1 := by
    rw [← zpow_add₀ htne]
    norm_num
  have hk2 : (1 / 2 : ℚ) * (2 : ℚ) ^ (E - (52 : ℤ)) = (2 : ℚ) ^ (E - (53 : ℤ)) := by
    rw [show E - (53 : ℤ) = (-1) + (E - 52) from by ring, zpow_add₀ htne]
    norm_num
  have hk3 : (2 : ℚ) ^ (E - (53 : ℤ)) ≤ q / 2 := by
    rw [show E - (53 : ℤ) = E + (-53) from by ring, zpow_add₀ htne]
    have h53 : (2 : ℚ) ^ ((-53) : ℤ) ≤ 1 / 2 := by
      rw [show ((-53) : ℤ) = -((53 : ℕ) : ℤ) from by norm_num, zpow_neg, zpow_natCast]
      rw [one_div, inv_le_inv₀ (by positivity) (by norm_num)]
      norm_num
    calc (2 : ℚ) ^ E * (2 : ℚ) ^ ((-53) : ℤ) ≤ q * (1 / 2) :=
          mul_le_mul he1 h53 (le_of_lt (zpow_pos (by norm_num) _)) (le_of_lt hq)
      _ = q / 2 := by ring
  have hb : b64pos q =
      (roundHalfEven (q * (2 : ℚ) ^ ((52 : ℤ) - E)) : ℚ) * (2 : ℚ) ^ (E - (52 : ℤ)) := by
    unfold b64pos
    rw [← hE, qpow2_eq, qpow2_eq]
  rw [hb]
  constructor
  · have hmono := mul_le_mul_of_nonneg_right hr1 (le_of_lt hPpos)
    have hexp : (q * (2 : ℚ) ^ ((52 : ℤ) - E) - 1 / 2) * (2 : ℚ) ^ (E - (52 : ℤ)) =
        q - (2 : ℚ) ^ (E - (53 : ℤ)) := by
      rw [sub_mul, mul_assoc, hk1, hk2]
      ring
    rw [hexp] at hmono
    linarith
  · have hmono := mul_le_mul_of_nonneg_right hr2 (le_of_lt hPpos)
    have hexp : (q * (2 : ℚ) ^ ((52 : ℤ) - E) + 1 / 2) * (2 : ℚ) ^ (E - (52 : ℤ)) =
        q + (2 : ℚ) ^ (E - (53 : ℤ)) := by
      rw [add_mul, mul_assoc, hk1, hk2]
      ring
    rw [hexp] at hmono
    linarith

/-- Crude two-sided bound for `b64round` on positive inputs. -/
theorem b64round_bounds (q : ℚ) (hq : 0 < q) : q / 2 ≤ b64round q ∧ b64round q ≤ 2 * q := by
  unfold b64round
  rw [if_neg (by positivity : q ≠ 0), if_pos hq]
  exact b64pos_bounds q hq

/-- Rounding preserves strict positivity. -/
theorem b64round_pos (q : ℚ) (hq : 0 < q) : 0 < b64round q :=
  lt_of_lt_of_le (by positivity) (b64round_bounds q hq).1

/-- Rounding preserves strict negativity. -/
theorem b64round_neg (q : ℚ) (hq : q < 0) : b64round q < 0 := by
  unfold b64round
  rw [if_neg (ne_of_lt hq), if_neg (not_lt.mpr (le_of_lt hq))]
  have h1 := (b64pos_bounds (-q) (by linarith)).1
  have h2 : (0 : ℚ) < -q / 2 := by linarith
  linarith

/-! ## Termination and divergence of the DecToExp normalization loops -/

/-- The overflow cutoff is positive (and larger than any value the loops
reach from small positives). -/
theorem b64max_pos : (0 : ℚ) < b64max := by
  unfold b64max
  positivity

/-- Twenty is below the overflow cutoff. -/
theorem twenty_lt_b64max : (20 : ℚ) < b64max := by
  have h : (20 : ℕ) < 2 ^ 1024 :=
    calc (20 : ℕ) < 2 ^ 5 := by norm_num
      _ ≤ 2 ^ 1024 := Nat.pow_le_pow_right (by omega) (by omega)
  unfold b64max
  exact_mod_cast h

/-- A multiply step on a positive value below one stays finite: the result
is at most 20, far below the overflow cutoff. -/
theorem pyfMul10_fin_small (q : ℚ) (h0 : 0 < q) (h1 : q < 1) :
    pyfMul10 (PyF.fin q) = PyF.fin (b64round (q * 10)) := by
  have hub : b64round (q * 10) ≤ 2 * (q * 10) := (b64round_bounds _ (by positivity)).2
  have hlb : 0 < b64round (q * 10) := b64round_pos _ (by positivity)
  have hno : ¬ (b64max ≤ b64round (q * 10)) := by
    have := twenty_lt_b64max
    push_neg
    nlinarith
  have hno2 : ¬ (b64round (q * 10) ≤ -b64max) := by
    have := b64max_pos
    push_neg
    linarith
  simp only [pyfMul10]
  rw [if_neg hno, if_neg hno2]

/-- The divide loop terminates from any positive start, with a positive
result at most 10: each iteration shrinks the value by at least a factor
five (a correctly rounded division by ten shrinks by at least five). -/
theorem loopDiv_term : ∀ k (q : ℚ) (e : ℤ), 0 < q → q ≤ 10 * 5 ^ k →
    ∃ q2 e2, loopDiv k (PyF.fin q, e) = some (PyF.fin q2, e2) ∧ 0 < q2 ∧ q2 ≤ 10 := by
  intro k
  induction k with
  | zero =>
      intro q e h0 hle
      simp only [pow_zero, mul_one] at hle
      refine ⟨q, e, ?_, h0, hle⟩
      simp [loopDiv, pyfGt10, not_lt.mpr hle]
  | succ k ih =>
      intro q e h0 hle
      by_cases h10 : 10 < q
      · have hstep : pyfGt10 (PyF.fin q) = true := by simp [pyfGt10, h10]
        have hq2 : 0 < b64round (q / 10) := b64round_pos _ (by positivity)
        have hub : b64round (q / 10) ≤ 2 * (q / 10) := (b64round_bounds _ (by positivity)).2
        have hle2 : b64round (q / 10) ≤ 10 * 5 ^ k := by
          have h5 : q / 5 ≤ (10 * 5 ^ (k + 1)) / 5 := by gcongr
          have h55 : (10 * 5 ^ (k + 1) : ℚ) / 5 = 10 * 5 ^ k := by
            rw [pow_succ]
            ring
          have h25 : (2 : ℚ) * (q / 10) = q / 5 := by ring
          linarith
        simp only [loopDiv, hstep, if_true, pyfDiv10]
        exact ih (b64round (q / 10)) (e + 1) hq2 hle2
      · refine ⟨q, e, ?_, h0, not_lt.mp h10⟩
        simp [loopDiv, pyfGt10, h10]

/-- The multiply loop terminates from any positive start: each iteration
grows the value by at least a factor five. -/
theorem loopMul_term : ∀ k (q : ℚ) (e : ℤ), 0 < q → 1 ≤ q * 5 ^ k →
    ∃ r, loopMul k (PyF.fin q, e) = some r := by
  intro k
  induction k with
  | zero =>
      intro q e h0 h1
      simp only [pow_zero, mul_one] at h1
      refine ⟨(PyF.fin q, e), ?_⟩
      simp [loopMul, pyfLt1, not_lt.mpr h1]
  | succ k ih =>
      intro q e h0 h1
      by_cases hq1 : q < 1
      · have hguard : pyfLt1 (PyF.fin q) = true := by simp [pyfLt1, hq1]
        have hstep := pyfMul10_fin_small q h0 hq1
        have hq2 : 0 < b64round (q * 10) := b64round_pos _ (by positivity)
        have hlb : q * 10 / 2 ≤ b64round (q * 10) := (b64round_bounds _ (by positivity)).1
        have h1b : 1 ≤ b64round (q * 10) * 5 ^ k := by
          have h5q : 5 * q ≤ b64round (q * 10) := by linarith
          have hp : (0 : ℚ) < 5 ^ k := by positivity
          have hmul : (5 * q) * 5 ^ k ≤ b64round (q * 10) * 5 ^ k :=
            mul_le_mul_of_nonneg_right h5q (le_of_lt hp)
          have heq : (5 * q) * 5 ^ k = q * 5 ^ (k + 1) := by
            rw [pow_succ]
            ring
          linarith
        obtain ⟨r, hr⟩ := ih (b64round (q * 10)) (e - 1) hq2 h1b
        refine ⟨r, ?_⟩
        simp only [loopMul, hguard, if_true, hstep]
        exact hr
      · refine ⟨(PyF.fin q, e), ?_⟩
        simp [loopMul, pyfLt1, hq1]

/-- Success of the divide loop is monotone in the fuel. -/
theorem loopDiv_mono : ∀ k k2 (p r : PyF × ℤ), loopDiv k p = some r → k ≤ k2 →
    loopDiv k2 p = some r := by
  intro k
  induction k with
  | zero =>
      intro k2 p r h hle
      by_cases hg : pyfGt10 p.1 = true
      · simp [loopDiv, hg] at h
      · have hg2 : pyfGt10 p.1 = false := by
          revert hg
          cases pyfGt10 p.1 <;> simp
        simp only [loopDiv, hg2, Bool.false_eq_true, if_false, Option.some.injEq] at h
        subst h
        exact loopDiv_of_guard_false _ _ hg2 k2
  | succ k ih =>
      intro k2 p r h hle
      by_cases hg : pyfGt10 p.1 = true
      · simp only [loopDiv, hg, if_true] at h
        obtain ⟨k3, rfl⟩ : ∃ k3, k2 = k3 + 1 := ⟨k2 - 1, by omega⟩
        simp only [loopDiv, hg, if_true]
        exact ih k3 _ r h (by omega)
      · have hg2 : pyfGt10 p.1 = false := by
          revert hg
          cases pyfGt10 p.1 <;> simp
        simp only [loopDiv, hg2, Bool.false_eq_true, if_false, Option.some.injEq] at h
        subst h
        exact loopDiv_of_guard_false _ _ hg2 k2

/-- Success of the multiply loop is monotone in the fuel. -/
theorem loopMul_mono : ∀ k k2 (p r : PyF × ℤ), loopMul k p = some r → k ≤ k2 →
    loopMul k2 p = some r := by
  intro k
  induction k with
  | zero =>
      intro k2 p r h hle
      by_cases hg : pyfLt1 p.1 = true
      · simp [loopMul, hg] at h
      · have hg2 : pyfLt1 p.1 = false := by
          revert hg
          cases pyfLt1 p.1 <;> simp
        simp only [loopMul, hg2, Bool.false_eq_true, if_false, Option.some.injEq] at h
        subst h
        exact loopMul_of_guard_false _ _ hg2 k2
  | succ k ih =>
      intro k2 p r h hle
      by_cases hg : pyfLt1 p.1 = true
      · simp only [loopMul, hg, if_true] at h
        obtain ⟨k3, rfl⟩ : ∃ k3, k2 = k3 + 1 := ⟨k2 - 1, by omega⟩
        simp only [loopMul, hg, if_true]
        exact ih k3 _ r h (by omega)
      · have hg2 : pyfLt1 p.1 = false := by
          revert hg
          cases pyfLt1 p.1 <;> simp
        simp only [loopMul, hg2, Bool.false_eq_true, if_false, Option.some.injEq] at h
        subst h
        exact loopMul_of_guard_false _ _ hg2 k2

/-- The multiply loop never terminates from negative infinity. -/
theorem loopMul_ninf (k : Nat) : ∀ e : ℤ, loopMul k (PyF.ninf, e) = none := by
  induction k with
  | zero => intro e; simp [loopMul, pyfLt1]
  | succ k ih => intro e; simp [loopMul, pyfLt1, pyfMul10, ih]

/-- The multiply loop never terminates from a negative value: multiplying
by ten keeps it negative (or overflows to negative infinity), and a
negative value always satisfies `base < 1`. -/
theorem loopMul_fin_neg (k : Nat) : ∀ (q : ℚ) (e : ℤ), q < 0 → loopMul k (PyF.fin q, e) = none := by
  induction k with
  | zero =>
      intro q e hq
      have hg : pyfLt1 (PyF.fin q) = true := by
        simp only [pyfLt1, decide_eq_true_eq]
        linarith
      simp [loopMul, hg]
  | succ k ih =>
      intro q e hq
      have hg : pyfLt1 (PyF.fin q) = true := by
        simp only [pyfLt1, decide_eq_true_eq]
        linarith
      have hneg : b64round (q * 10) < 0 :=
        b64round_neg _ (mul_neg_of_neg_of_pos hq (by norm_num))
      have hnotp : ¬ (b64max ≤ b64round (q * 10)) := by
        have := b64max_pos
        push_neg
        linarith
      by_cases hover : b64round (q * 10) ≤ -b64max
      · have hstep : pyfMul10 (PyF.fin q) = PyF.ninf := by
          simp only [pyfMul10]
          rw [if_neg hnotp, if_pos hover]
        simp only [loopMul, hg, if_true, hstep]
        exact loopMul_ninf k _
      · have hstep : pyfMul10 (PyF.fin q) = PyF.fin (b64round (q * 10)) := by
          simp only [pyfMul10]
          rw [if_neg hnotp, if_neg hover]
        simp only [loopMul, hg, if_true, hstep]
        exact ih _ _ hneg

/-- The divide loop never terminates from positive infinity. -/
theorem loopDiv_pinf (k : Nat) : ∀ e : ℤ, loopDiv k (PyF.pinf, e) = none := by
  induction k with
  | zero => intro e; simp [loopDiv, pyfGt10]
  | succ k ih => intro e; simp [loopDiv, pyfGt10, pyfDiv10, ih]

/-- Every positive rational is below some `10 * 5 ^ k`. -/
theorem exists_pow5_ge (q : ℚ) : ∃ k, q ≤ 10 * 5 ^ k := by
  rcases le_or_lt q 0 with h | h
  · exact ⟨0, by simp; linarith⟩
  · refine ⟨q.num.toNat, ?_⟩
    have hden1 : (1 : ℚ) ≤ (q.den : ℚ) := by
      have := q.pos
      exact_mod_cast this
    have hmulden : q * (q.den : ℚ) = (q.num : ℚ) := by
      have hd : ((q.den : ℚ)) ≠ 0 := by positivity
      have hnd := Rat.num_div_den q
      rw [div_eq_iff hd] at hnd
      exact hnd.symm
    have h1 : q ≤ (q.num : ℚ) := by
      rw [← hmulden]
      exact le_mul_of_one_le_right (le_of_lt h) hden1
    have hnum : 0 < q.num := Rat.num_pos.mpr h
    have h2n : q.num.toNat < 2 ^ q.num.toNat := Nat.lt_two_pow _
    have h25 : (2 : ℕ) ^ q.num.toNat ≤ 5 ^ q.num.toNat := Nat.pow_le_pow_left (by omega) _
    have h2 : (q.num : ℚ) ≤ (5 : ℚ) ^ q.num.toNat := by
      have hxx : (q.num.toNat : ℚ) ≤ ((5 ^ q.num.toNat : ℕ) : ℚ) := by
        exact_mod_cast le_of_lt (lt_of_lt_of_le h2n h25)
      have hnn : ((q.num.toNat : ℕ) : ℚ) = (q.num : ℚ) := by
        exact_mod_cast Int.toNat_of_nonneg (le_of_lt hnum)
      rw [hnn] at hxx
      push_cast at hxx
      exact hxx
    have h3 : (5 : ℚ) ^ q.num.toNat ≤ 10 * 5 ^ q.num.toNat := by
      have := pow_pos (by norm_num : (0 : ℚ) < 5) q.num.toNat
      linarith
    linarith

/-- For every positive rational some `q * 5 ^ k` reaches one. -/
theorem exists_pow5_inv (q : ℚ) (hq : 0 < q) : ∃ k, 1 ≤ q * 5 ^ k := by
  refine ⟨q.den, ?_⟩
  have hnum : (1 : ℤ) ≤ q.num := by
    have := Rat.num_pos.mpr hq
    omega
  have hnum1 : (1 : ℚ) ≤ (q.num : ℚ) := by exact_mod_cast hnum
  have hmulden : q * (q.den : ℚ) = (q.num : ℚ) := by
    have hd : ((q.den : ℚ)) ≠ 0 := by positivity
    have hnd := Rat.num_div_den q
    rw [div_eq_iff hd] at hnd
    exact hnd.symm
  have h2n : q.den < 2 ^ q.den := Nat.lt_two_pow _
  have h25 : (2 : ℕ) ^ q.den ≤ 5 ^ q.den := Nat.pow_le_pow_left (by omega) _
  have h5 : (q.den : ℚ) ≤ (5 : ℚ) ^ q.den := by
    have hxx : (q.den : ℚ) ≤ ((5 ^ q.den : ℕ) : ℚ) := by
      exact_mod_cast le_of_lt (lt_of_lt_of_le h2n h25)
    push_cast at hxx
    exact hxx
  calc (1 : ℚ) ≤ (q.num : ℚ) := hnum1
    _ = q * (q.den : ℚ) := hmulden.symm
    _ ≤ q * (5 : ℚ) ^ q.den := mul_le_mul_of_nonneg_left h5 (le_of_lt hq)

/-- C10 counterexample: on a NaN value (reachable, since `float(nan)`
parses) both loop guards are false, so the loops exit at once even though
NaN is neither strictly positive nor finite; the claimed equivalence
(terminates iff strictly positive finite) is therefore false at NaN. -/
theorem C10_counterexample :
    pyFloatParse (String.data ("nan")) = some PyF.nan ∧
    decToExpLoops 0 PyF.nan = some (PyF.nan, 0) ∧
    ¬ ∃ q : ℚ, PyF.nan = PyF.fin q ∧ 0 < q := by
  refine ⟨by decide, by decide, ?_⟩
  rintro ⟨q, h, -⟩
  cases h

/-- C10 amended: the normalization loops of DecToExp terminate exactly on
the strictly positive finite values and on NaN (where both guards compare
false): they hang on zero, on every negative value and on both
infinities. -/
theorem C10_loop_termination (x : PyF) :
    (∃ n, (decToExpLoops n x).isSome) ↔ (∃ q : ℚ, x = PyF.fin q ∧ 0 < q) ∨ x = PyF.nan := by
  cases x with
  | fin q =>
      rcases lt_trichotomy q 0 with hneg | rfl | hpos
      · constructor
        · rintro ⟨n, hn⟩
          exfalso
          have hg : pyfGt10 (PyF.fin q) = false := by
            simp only [pyfGt10, decide_eq_false_iff_not]
            linarith
          simp [decToExpLoops, loopDiv_of_guard_false _ _ hg n,
            loopMul_fin_neg n q 0 hneg] at hn
        · rintro (⟨q2, heq, hq2⟩ | h)
          · exfalso
            cases heq
            linarith
          · cases h
      · constructor
        · rintro ⟨n, hn⟩
          exfalso
          simp [decToExpLoops, loopDiv_of_guard_false (PyF.fin 0) 0 (by decide) n,
            loopMul_fin_zero n 0] at hn
        · rintro (⟨q2, heq, hq2⟩ | h)
          · exfalso
            cases heq
            exact lt_irrefl _ hq2
          · cases h
      · constructor
        · intro _
          exact Or.inl ⟨q, rfl, hpos⟩
        · intro _
          obtain ⟨k1, hk1⟩ := exists_pow5_ge q
          obtain ⟨q2, e2, hd, hq2, _⟩ := loopDiv_term k1 q 0 hpos hk1
          obtain ⟨k2, hk2⟩ := exists_pow5_inv q2 hq2
          obtain ⟨r, hm⟩ := loopMul_term k2 q2 e2 hq2 hk2
          refine ⟨k1 + k2, ?_⟩
          have hd2 := loopDiv_mono k1 (k1 + k2) _ _ hd (by omega)
          have hm2 := loopMul_mono k2 (k1 + k2) _ _ hm (by omega)
          simp [decToExpLoops, hd2, hm2]
  | pinf =>
      constructor
      · rintro ⟨n, hn⟩
        simp [decToExpLoops, loopDiv_pinf n 0] at hn
      · rintro (⟨q, h, -⟩ | h) <;> cases h
  | ninf =>
      constructor
      · rintro ⟨n, hn⟩
        have hg : pyfGt10 PyF.ninf = false := rfl
        simp [decToExpLoops, loopDiv_of_guard_false _ _ hg n, loopMul_ninf n 0] at hn
      · rintro (⟨q, h, -⟩ | h) <;> cases h
  | nan =>
      constructor
      · intro _
        exact Or.inr rfl
      · intro _
        exact ⟨0, by decide⟩
